import Mathlib

/- A formal model of the Lua card-script metadata extractor and its
   incremental upsert-merge logic (src/home.py), together with proofs and
   refutations of the specification claims about it.

   Strings are modelled as lists of characters.  The regular expressions of
   the source are translated into explicit matching functions; each
   translation states the pattern it implements and, where the pattern
   admits backtracking, why the translation computes the same result.
   The document store is modelled as an association list from card id to a
   document, a document being an association list from field name to a
   field value; a $set update replaces exactly the named top-level fields.

   Python character classes are modelled at ASCII precision: \s is
   Char.isWhitespace, \d is Char.isDigit, \w is alphanumeric or underscore,
   [A-Z] is Char.isUpper.  splitlines is modelled as splitting on the
   newline character. -/

abbrev Str := List Char

def wsb (c : Char) : Bool := c.isWhitespace

/-- Python str.strip: remove leading and trailing whitespace. -/
def pstrip (s : Str) : Str :=
  ((s.dropWhile wsb).reverse.dropWhile wsb).reverse

/-- Python str.split on a single separator character:
    splitChar c s always returns at least one (possibly empty) piece. -/
def splitChar (sep : Char) : Str → List Str
  | [] => [[]]
  | c :: rest =>
    if c = sep then [] :: splitChar sep rest
    else
      match splitChar sep rest with
      | h :: t => (c :: h) :: t
      | [] => [[c]]

/-- Python str.splitlines restricted to the newline character:
    no trailing empty line when the text ends in a newline. -/
def pySplitlines (s : Str) : List Str :=
  match s with
  | [] => []
  | _ :: _ =>
    let parts := splitChar '\n' s
    if s.getLast? = some '\n' then parts.dropLast else parts

/-- Match a literal at the head of the input; on success return the rest. -/
def dropLit? : Str → Str → Option Str
  | [], s => some s
  | _ :: _, [] => none
  | p :: ps, c :: cs => if c = p then dropLit? ps cs else none

/-- Case-insensitive variant of dropLit? (for the re.IGNORECASE pattern). -/
def dropLitCI? : Str → Str → Option Str
  | [], s => some s
  | _ :: _, [] => none
  | p :: ps, c :: cs => if c.toLower = p.toLower then dropLitCI? ps cs else none

/-- Everything up to the first occurrence of the literal stop, and the text
    after that occurrence.  This is the semantics of a lazy group followed
    by a literal, as in the patterns ( .*? )\) and (.*?)end of the source. -/
def findUpTo (stop : Str) : Str → Option (Str × Str)
  | [] => none
  | c :: rest =>
    match dropLit? stop (c :: rest) with
    | some r => some ([], r)
    | none => (findUpTo stop rest).map (fun p => (c :: p.1, p.2))

/-- Does the literal pat occur anywhere in s (re.search of a plain literal)? -/
def hasSub (pat : Str) : Str → Bool
  | [] => (dropLit? pat []).isSome
  | s@(_ :: rest) => (dropLit? pat s).isSome || hasSub pat rest

/-- Run a boolean matcher at every suffix: re.search of a pattern, as a
    boolean.  The source only ever converts these searches to bool. -/
def searchAnySuffix (m : Str → Bool) : Str → Bool
  | [] => m []
  | s@(_ :: rest) => m s || searchAnySuffix m rest

/-- Leftmost-first search producing the first match value (re.search with a
    capture group). -/
def searchFirst {α : Type} (m : Str → Option α) : Str → Option α
  | [] => m []
  | s@(_ :: rest) =>
    match m s with
    | some x => some x
    | none => searchFirst m rest

def digitsToNat (ds : Str) : Nat :=
  ds.foldl (fun n c => n * 10 + (c.toNat - 48)) 0

/-- Decimal rendering of a card id, as interpolated into log strings. -/
def natChars (n : Nat) : Str := (toString n).toList

def isWordChar (c : Char) : Bool := c.isAlphanum || c = '_'

/-- re.match of c(\d+)\.lua against the filename: an anchored PREFIX match
    (re.match does not anchor at the end of the string).  The greedy \d+
    cannot profitably backtrack because the following character '.' is not
    a digit, so the maximal digit run is the only candidate. -/
def parseCardId (fname : Str) : Option Nat :=
  match fname with
  | 'c' :: rest =>
    let ds := rest.takeWhile Char.isDigit
    if ds.isEmpty then none
    else if (dropLit? (".lua".toList) (rest.dropWhile Char.isDigit)).isSome then
      some (digitsToNat ds)
    else none
  | _ => none

/-- Modelled from the spec (§6, "files named c<digits>.<ext>"): the full
    filename pattern c<digits>.lua with nothing following, used to compare
    the spec's filename gate with the source's prefix match. -/
def specCardFileName (fname : Str) : Bool :=
  match fname with
  | 'c' :: rest =>
    ¬ (rest.takeWhile Char.isDigit).isEmpty
      && rest.dropWhile Char.isDigit = ".lua".toList
  | _ => false

/-- extract_names of the source: walk the lines; a stripped line starting
    with the comment marker contributes its text to jp first and then to
    en (with an early return once en is filled); every other line, blank or
    not, is passed over (the source uses continue in both branches). -/
def extract_names_go : List Str → Str → Str → Str × Str
  | [], jp, en => (jp, en)
  | line :: rest, jp, en =>
    let s := pstrip line
    match dropLit? ('-' :: '-' :: []) s with
    | some tail =>
      let text := pstrip tail
      if jp.isEmpty then extract_names_go rest text en
      else if en.isEmpty then (jp, text)
      else extract_names_go rest jp en
    | none => extract_names_go rest jp en

def extract_names (lua : Str) : Str × Str :=
  extract_names_go (pySplitlines lua) [] []

/-- A function entry: {parameters: [...], body: "..."}. -/
structure Func where
  parameters : List Str
  body : Str
deriving DecidableEq, Repr

/-- split_params of the source: split on commas, strip each piece, drop
    empty pieces; a whitespace-only parameter string yields no parameters. -/
def split_params (param_str : Str) : List Str :=
  if (pstrip param_str).isEmpty then []
  else ((splitChar ',' param_str).map pstrip).filter (fun p => ¬ p.isEmpty)

/-- One attempt of FUNC_PATTERN, function\s+s\.(\w+)\s*\((.*?)\)(.*?)end
    with DOTALL, anchored at the start of s; on success the three captures
    and the text after the match.  The greedy \s+, \w+ and \s* pieces
    cannot profitably backtrack: each is followed by a required character
    ('s', '(') that belongs to neither class, so the maximal runs are the
    only candidates.  The lazy groups stop at the first ')' and the first
    literal "end" respectively. -/
def matchFuncAt (s : Str) : Option ((Str × Str × Str) × Str) :=
  match dropLit? ("function".toList) s with
  | none => none
  | some s1 =>
    match s1 with
    | [] => none
    | c :: _ =>
      if ¬ wsb c then none
      else
        match dropLit? ("s.".toList) (s1.dropWhile wsb) with
        | none => none
        | some s3 =>
          let name := s3.takeWhile isWordChar
          if name.isEmpty then none
          else
            match dropLit? (['(']) ((s3.dropWhile isWordChar).dropWhile wsb) with
            | none => none
            | some s5 =>
              match findUpTo ([')']) s5 with
              | none => none
              | some (params, s6) =>
                match findUpTo ("end".toList) s6 with
                | none => none
                | some (body, s7) => some ((name, params, body), s7)

/-- FUNC_PATTERN.finditer: repeatedly take the leftmost match and resume
    after its end.  Fuel-based recursion; every step either consumes one
    character (failed position) or a whole match (at least one character),
    so fuel s.length never runs out before s does. -/
def findMatchesF : Nat → Str → List (Str × Str × Str)
  | 0, _ => []
  | _ + 1, [] => []
  | fuel + 1, s@(_ :: rest) =>
    match matchFuncAt s with
    | some (m, r) => m :: findMatchesF fuel r
    | none => findMatchesF fuel rest

/-- Python dict assignment: replace the value at an existing key in place,
    otherwise append the new binding. -/
def dictInsertF (l : List (Str × Func)) (k : Str) (v : Func) : List (Str × Func) :=
  match l with
  | [] => [(k, v)]
  | (k', v') :: t => if k' = k then (k, v) :: t else (k', v') :: dictInsertF t k v

def lookupF : List (Str × Func) → Str → Option Func
  | [], _ => none
  | (k', v) :: t, k => if k' = k then some v else lookupF t k

/-- extract_functions of the source: fold the matches into a dict,
    splitting the parameters and stripping the body. -/
def extract_functions (lua : Str) : List (Str × Func) :=
  (findMatchesF lua.length lua).foldl
    (fun acc m => dictInsertF acc m.1 ⟨split_params m.2.1, pstrip m.2.2⟩) []

/-- Matcher for RE_SETCOUNTLIMIT, \.SetCountLimit\s*\(\s*([^\)]*)\), at one
    position, as a boolean.  After the literal and the '(' the pieces
    \s* and [^)]* together consume any characters other than ')', so the
    attempt succeeds exactly when some ')' occurs in the remainder. -/
def mSetCountLimit (s : Str) : Bool :=
  match dropLit? (".SetCountLimit".toList) s with
  | none => false
  | some a =>
    match dropLit? (['(']) (a.dropWhile wsb) with
    | none => false
    | some b => b.any (fun c => c = ')')

/-- Matcher for RE_SETCOUNTLIMIT_HOPT, \.SetCountLimit\s*\(\s*1\s*,\s*id\s*\),
    at one position.  Every \s* is followed by a required non-whitespace
    character, so each maximal whitespace run is forced and the whole
    attempt is deterministic. -/
def mHOPT (s : Str) : Bool :=
  match dropLit? (".SetCountLimit".toList) s with
  | none => false
  | some a =>
    match dropLit? (['(']) (a.dropWhile wsb) with
    | none => false
    | some b =>
      match dropLit? (['1']) (b.dropWhile wsb) with
      | none => false
      | some c =>
        match dropLit? ([',']) (c.dropWhile wsb) with
        | none => false
        | some d =>
          match dropLit? ("id".toList) (d.dropWhile wsb) with
          | none => false
          | some e => (dropLit? ([')']) (e.dropWhile wsb)).isSome

/-- Tail of the once-comment pattern: \s*--\s*once, case-insensitively on
    the word once. -/
def onceTail (s : Str) : Bool :=
  match dropLit? ("--".toList) (s.dropWhile wsb) with
  | none => false
  | some b => (dropLitCI? ("once".toList) (b.dropWhile wsb)).isSome

/-- Scan of [^,]*\)\s*--\s*once after SetCountLimit(: the greedy [^,]* may
    swallow ')' characters, so with backtracking the attempt succeeds
    exactly when some ')' occurs before the first ',' with a once-comment
    tail right after it. -/
def mOnceScan : Str → Bool
  | [] => false
  | c :: rest =>
    if c = ',' then false
    else (c = ')' && onceTail rest) || mOnceScan rest

/-- Matcher at one position for the IGNORECASE pattern
    SetCountLimit\([^,]*\)\s*--\s*once of the source. -/
def mOnceComment (s : Str) : Bool :=
  match dropLitCI? ("SetCountLimit(".toList) s with
  | none => false
  | some a => mOnceScan a

/-- Matcher for RE_SETCOUNTLIMIT_DUEL,
    SetCountLimit\([^,]*,[^,]*EFFECT_COUNT_CODE_DUEL, at one position.
    [^,]*, reaches exactly the first comma; the second [^,]* then the
    literal succeed exactly when the literal (which contains no comma)
    occurs before the next comma. -/
def mDuelCall (s : Str) : Bool :=
  match dropLit? ("SetCountLimit(".toList) s with
  | none => false
  | some a =>
    match a.dropWhile (fun c => ¬ c = ',') with
    | ',' :: b => hasSub ("EFFECT_COUNT_CODE_DUEL".toList) (b.takeWhile (fun c => ¬ c = ','))
    | _ => false

/-- Matcher for RE_SET_PROPERTY, \.SetProperty\s*\(([^)]*)\), at one
    position, as a boolean (same shape as mSetCountLimit). -/
def mSetProperty (s : Str) : Bool :=
  match dropLit? (".SetProperty".toList) s with
  | none => false
  | some a =>
    match dropLit? (['(']) (a.dropWhile wsb) with
    | none => false
    | some b => b.any (fun c => c = ')')

/-- Capture of RE_LISTED_SERIES / RE_LISTED_NAMES,
    s\.listed_<kind>\s*=\s*\{([^\}]*)\}, at one position: the text between
    the braces, up to the first closing brace. -/
def mListedAt (lit : Str) (s : Str) : Option Str :=
  match dropLit? lit s with
  | none => none
  | some a =>
    match dropLit? (['=']) (a.dropWhile wsb) with
    | none => none
    | some b =>
      match dropLit? (['\x7b']) (b.dropWhile wsb) with
      | none => none
      | some c => (findUpTo (['\x7d']) c).map (fun p => p.1)

/-- findall driver: at each position try the matcher; on a match record the
    result and resume after the match, otherwise move one character right.
    Fuel-based recursion; each matcher consumes at least one character, so
    fuel s.length never runs out before s does. -/
def findAllF {α : Type} (m : Str → Option (α × Str)) : Nat → Str → List α
  | 0, _ => []
  | _ + 1, [] => []
  | fuel + 1, s@(_ :: rest) =>
    match m s with
    | some (x, r) => x :: findAllF m fuel r
    | none => findAllF m fuel rest

/-- Matcher for a literal followed by a nonempty greedy character-class
    run, e.g. CATEGORY_[A-Z_]+; the match text is literal plus run. -/
def matchLitClassAt (lit : Str) (cls : Char → Bool) (s : Str) : Option (Str × Str) :=
  match dropLit? lit s with
  | none => none
  | some a =>
    let run := a.takeWhile cls
    if run.isEmpty then none else some (lit ++ run, a.dropWhile cls)

def isUpperUnd (c : Char) : Bool := c.isUpper || c = '_'

/-- Matcher for IsCode\s*\(\s*(\d+)\s*\) with its digit capture. -/
def matchIsCodeAt (s : Str) : Option (Nat × Str) :=
  match dropLit? ("IsCode".toList) s with
  | none => none
  | some a =>
    match dropLit? (['(']) (a.dropWhile wsb) with
    | none => none
    | some b =>
      let c := b.dropWhile wsb
      let ds := c.takeWhile Char.isDigit
      if ds.isEmpty then none
      else
        match dropLit? ([')']) ((c.dropWhile Char.isDigit).dropWhile wsb) with
        | none => none
        | some r => some (digitsToNat ds, r)

/-- Matcher for RE_CATEGORY_CALL, Category\.\w+|CATEGORY_[A-Z_]+: the first
    alternative is tried first at each position. -/
def matchCatCallAt (s : Str) : Option (Str × Str) :=
  match matchLitClassAt ("Category.".toList) isWordChar s with
  | some r => some r
  | none => matchLitClassAt ("CATEGORY_".toList) isUpperUnd s

/-- findall of \d+: maximal digit runs, left to right.  Fuel-based for the
    same reason as findAllF. -/
def digitRunsF : Nat → Str → List Str
  | 0, _ => []
  | _ + 1, [] => []
  | fuel + 1, c :: rest =>
    if c.isDigit then
      ((c :: rest).takeWhile Char.isDigit) :: digitRunsF fuel ((c :: rest).dropWhile Char.isDigit)
    else digitRunsF fuel rest

/-- Python list(set(...)) modelled as first-occurrence deduplication; the
    source only ever compares these lists against lists produced by the
    same function on the same text, so the choice of order is immaterial. -/
def dedupKeepFirst {α : Type} [DecidableEq α] (l : List α) : List α :=
  l.foldl (fun acc x => if x ∈ acc then acc else acc ++ [x]) []

/-- The fixed-shape meta record produced by detect_meta. -/
structure Meta where
  has_SetCountLimit : Bool
  has_HOPT_like : Bool
  has_once_per_duel : Bool
  listed_series : List Str
  listed_names : List Nat
  categories : List Str
  events : List Str
  effect_flags : List Str
  effect_types : List Str
  has_target_property : Bool
  has_indestructible : Bool
  has_cannot_be_target : Bool
  has_cannot_special_summon : Bool
  has_custom_activity_counter : Bool
  referenced_codes : List Nat
  category_calls : List Str
deriving DecidableEq, Repr

/-- detect_meta of the source, field for field. -/
def detect_meta (lua : Str) : Meta where
  has_SetCountLimit := searchAnySuffix mSetCountLimit lua
  has_HOPT_like := searchAnySuffix mHOPT lua || searchAnySuffix mOnceComment lua
  has_once_per_duel :=
    searchAnySuffix mDuelCall lua || hasSub ("EFFECT_COUNT_CODE_DUEL".toList) lua
  listed_series :=
    match searchFirst (mListedAt ("s.listed_series".toList)) lua with
    | some raw => ((splitChar ',' raw).map pstrip).filter (fun p => ¬ p.isEmpty)
    | none => []
  listed_names :=
    match searchFirst (mListedAt ("s.listed_names".toList)) lua with
    | some raw => (digitRunsF raw.length raw).map digitsToNat
    | none => []
  categories :=
    dedupKeepFirst (findAllF (matchLitClassAt ("CATEGORY_".toList) isUpperUnd) lua.length lua)
  events :=
    dedupKeepFirst (findAllF (matchLitClassAt ("EVENT_".toList) isUpperUnd) lua.length lua)
  effect_flags :=
    dedupKeepFirst (findAllF (matchLitClassAt ("EFFECT_FLAG_".toList) isUpperUnd) lua.length lua)
  effect_types :=
    dedupKeepFirst (findAllF (matchLitClassAt ("EFFECT_TYPE_".toList) isUpperUnd) lua.length lua)
  has_target_property :=
    searchAnySuffix mSetProperty lua || hasSub ("EFFECT_FLAG_CARD_TARGET".toList) lua
  has_indestructible :=
    hasSub ("EFFECT_INDESTRUCTABLE_EFFECT".toList) lua
      || hasSub ("EFFECT_INDESTRUCTABLE_BATTLE".toList) lua
  has_cannot_be_target := hasSub ("EFFECT_CANNOT_BE_EFFECT_TARGET".toList) lua
  has_cannot_special_summon := hasSub ("EFFECT_CANNOT_SPECIAL_SUMMON".toList) lua
  has_custom_activity_counter :=
    hasSub ("AddCustomActivityCounter".toList) lua
      || hasSub ("CustomActivityCounter".toList) lua
  referenced_codes := dedupKeepFirst (findAllF matchIsCodeAt lua.length lua)
  category_calls := dedupKeepFirst (findAllF matchCatCallAt lua.length lua)

/-- A top-level field value of a stored card document.  vExt stands for a
    value written by some other pipeline (the source tolerates arbitrary
    extra fields); the extractor itself only ever writes the other three
    shapes. -/
inductive FieldVal where
  | vStr : Str → FieldVal
  | vFuncs : List (Str × Func) → FieldVal
  | vMeta : Meta → FieldVal
  | vExt : Nat → FieldVal
deriving DecidableEq, Repr

/-- A stored document: its top-level fields other than the id (the id is
    the association key in the store). -/
abbrev Doc := List (String × FieldVal)

/-- The keyed collection, with the unique id as the association key. -/
abbrev Store := List (Nat × Doc)

def lookupD : Doc → String → Option FieldVal
  | [], _ => none
  | (k', v) :: t, k => if k' = k then some v else lookupD t k

/-- Apply $set of one field: replace the value at the key, or append the field. -/
def setFieldD : Doc → String → FieldVal → Doc
  | [], k, v => [(k, v)]
  | (k', v') :: t, k, v =>
    if k' = k then (k, v) :: t else (k', v') :: setFieldD t k v

/-- Apply a $set update document: set each named top-level field in turn,
    leaving every other field of the document alone. -/
def applySet (d : Doc) (uf : Doc) : Doc :=
  uf.foldl (fun d' kv => setFieldD d' kv.1 kv.2) d

/-- collection.find_one by id. -/
def storeFind : Store → Nat → Option Doc
  | [], _ => none
  | (j, d) :: t, i => if j = i then some d else storeFind t i

/-- collection.update_one by id with a $set document and upsert=True:
    update the matched document in place, or insert a fresh document whose
    fields are exactly the $set fields (the id lives in the key). -/
def storeUpsert (st : Store) (i : Nat) (uf : Doc) : Store :=
  if (storeFind st i).isSome then
    st.map (fun p => if p.1 = i then (p.1, applySet p.2 uf) else p)
  else st ++ [(i, applySet [] uf)]

def kNameJp : String := "name_jp"
def kNameEn : String := "name_en"
def kLuaRaw : String := "lua_raw"
def kFunctions : String := "functions"
def kMeta : String := "meta"

/-- The incremental diff of the source (lines 257-276): scalar fields are
    included when new or different, the functions field collects exactly
    the changed function entries, and the meta field is included when the
    whole meta record differs.  The result is the $set document, assembled
    in the source's insertion order. -/
def updateFields (existing : Option Doc) (lua : Str) : Doc :=
  let names := extract_names lua
  let functions := extract_functions lua
  let meta := detect_meta lua
  let is_new := existing.isNone
  let ex := existing.getD []
  let u1 :=
    if is_new || ¬ lookupD ex kNameJp = some (FieldVal.vStr names.1) then
      [(kNameJp, FieldVal.vStr names.1)]
    else []
  let u2 :=
    if is_new || ¬ lookupD ex kNameEn = some (FieldVal.vStr names.2) then
      [(kNameEn, FieldVal.vStr names.2)]
    else []
  let u3 :=
    if is_new || ¬ lookupD ex kLuaRaw = some (FieldVal.vStr lua) then
      [(kLuaRaw, FieldVal.vStr lua)]
    else []
  let exFuncs :=
    match lookupD ex kFunctions with
    | some (FieldVal.vFuncs fs) => fs
    | _ => []
  let fdiff := functions.foldl
    (fun acc nf => if lookupF exFuncs nf.1 = some nf.2 then acc else dictInsertF acc nf.1 nf.2) []
  let u4 := if fdiff.isEmpty then [] else [(kFunctions, FieldVal.vFuncs fdiff)]
  let exMetaEq : Bool :=
    match lookupD ex kMeta with
    | some (FieldVal.vMeta m) => decide (m = meta)
    | _ => false
  let u5 := if exMetaEq then [] else [(kMeta, FieldVal.vMeta meta)]
  u1 ++ u2 ++ u3 ++ u4 ++ u5

/-- The outcome of one file of the batch loop; each maps to exactly one of
    the four counters. -/
inductive Outcome where
  | errRead | skipNoId | errFind | ins | upd | errUpsert | skipNoChange
deriving DecidableEq, Repr

/-- One candidate .lua file of a batch, together with the environment's
    behaviour at the three fallible operations of the loop: reading the
    file, collection.find_one and collection.update_one.  A some value is
    the message of the exception the operation raises. -/
structure FileInput where
  fname : Str
  readRes : Except Str Str
  findErr : Option Str
  upsertErr : Option Str

/-- Result of one iteration of the batch loop: the store afterwards, the
    outcome, the number of find_one and update_one calls issued, and the
    log lines appended. -/
structure StepOut where
  store : Store
  outcome : Outcome
  finds : Nat
  writes : Nat
  log : List Str

def kErrReading : Str := "ERROR reading ".toList
def kColonSp : Str := ": ".toList
def kSkipNoId : Str := "SKIP (no id) ".toList
def kErrFind : Str := "ERROR DB find ".toList
def kErrUpsert : Str := "ERROR DB upsert ".toList
def kInserted : Str := "INSERTED ".toList
def kUpdated : Str := "UPDATED ".toList
def kSkippedNC : Str := "SKIPPED (no changes) ".toList
def kParL : Str := " (".toList
def kParR : Str := ")".toList

/-- One iteration of the batch loop of the source (lines 206-298): read,
    gate on the filename, extract, find, diff, and either skip or upsert;
    every failure of a fallible operation is caught, logged and turned
    into the error outcome for this file. -/
def processFile (store : Store) (f : FileInput) : StepOut :=
  match f.readRes with
  | .error e => ⟨store, .errRead, 0, 0, [kErrReading ++ f.fname ++ kColonSp ++ e]⟩
  | .ok lua =>
    match parseCardId f.fname with
    | none => ⟨store, .skipNoId, 0, 0, [kSkipNoId ++ f.fname]⟩
    | some card_id =>
      match f.findErr with
      | some e => ⟨store, .errFind, 1, 0, [kErrFind ++ natChars card_id ++ kColonSp ++ e]⟩
      | none =>
        let existing := storeFind store card_id
        let uf := updateFields existing lua
        if uf.isEmpty then
          ⟨store, .skipNoChange, 1, 0, [kSkippedNC ++ natChars card_id]⟩
        else
          match f.upsertErr with
          | some e =>
            ⟨store, .errUpsert, 1, 1, [kErrUpsert ++ natChars card_id ++ kColonSp ++ e]⟩
          | none =>
            if existing.isNone then
              ⟨storeUpsert store card_id uf, .ins, 1, 1,
                [kInserted ++ natChars card_id ++ kParL ++ f.fname ++ kParR]⟩
            else
              ⟨storeUpsert store card_id uf, .upd, 1, 1,
                [kUpdated ++ natChars card_id ++ kParL ++ f.fname ++ kParR]⟩

def countIns : Outcome → Nat
  | .ins => 1
  | _ => 0

def countUpd : Outcome → Nat
  | .upd => 1
  | _ => 0

def countSkip : Outcome → Nat
  | .skipNoId => 1
  | .skipNoChange => 1
  | _ => 0

def countErr : Outcome → Nat
  | .errRead => 1
  | .errFind => 1
  | .errUpsert => 1
  | _ => 0

/-- The running state of one batch: the store plus the four outcome
    counters, the operation counts and the log. -/
structure BatchState where
  store : Store
  inserted : Nat
  updated : Nat
  skipped : Nat
  errors : Nat
  finds : Nat
  writes : Nat
  log : List Str

def mkState (store : Store) : BatchState := ⟨store, 0, 0, 0, 0, 0, 0, []⟩

/-- Fold one file's result into the batch state. -/
def stepFold (st : BatchState) (f : FileInput) : BatchState :=
  let r := processFile st.store f
  { store := r.store
    inserted := st.inserted + countIns r.outcome
    updated := st.updated + countUpd r.outcome
    skipped := st.skipped + countSkip r.outcome
    errors := st.errors + countErr r.outcome
    finds := st.finds + r.finds
    writes := st.writes + r.writes
    log := st.log ++ r.log }

/-- The batch loop over the sorted candidate files. -/
def runBatch (st : BatchState) (files : List FileInput) : BatchState :=
  files.foldl stepFold st

/-- sub occurs contiguously inside l. -/
def containsSeq (sub l : Str) : Prop := ∃ pre suf, l = pre ++ sub ++ suf

/-- A definition of the textual shape function s.<name>(<params>) <body> end
    that FUNC_PATTERN is written for. -/
def funcDef (n p b : Str) : Str :=
  "function s.".toList ++ n ++ ['('] ++ p ++ [')'] ++ b ++ "end".toList

/-- Modelled from the spec wording of the once-per-turn claim: some
    count-limit call whose argument list (up to the closing parenthesis)
    has first argument the literal 1 and second argument the identifier
    id, regardless of any further arguments or of a leading dot. -/
def specArgsAt (s : Str) : Bool :=
  match dropLit? ("SetCountLimit(".toList) s with
  | none => false
  | some a =>
    if a.any (fun c => c = ')') then
      match (splitChar ',' (a.takeWhile (fun c => ¬ c = ')'))).map pstrip with
      | p0 :: p1 :: _ => p0 = ['1'] && p1 = "id".toList
      | _ => false
    else false

def specCountLimitOneId (lua : Str) : Bool := searchAnySuffix specArgsAt lua

/-- Pointwise case-insensitive equality of two texts. -/
def ciSame (a b : Str) : Prop := a.map Char.toLower = b.map Char.toLower

/-- Declarative reading of RE_SETCOUNTLIMIT_HOPT,
    \.SetCountLimit\s*\(\s*1\s*,\s*id\s*\): the text decomposes around one
    occurrence of the pattern, with whitespace runs between the tokens. -/
def hoptSpec (lua : Str) : Prop :=
  ∃ pre w1 w2 w3 w4 w5 post : Str,
    lua = pre ++ ".SetCountLimit".toList ++ w1 ++ ['('] ++ w2 ++ ['1'] ++ w3
      ++ [','] ++ w4 ++ "id".toList ++ w5 ++ [')'] ++ post
    ∧ w1.all wsb = true ∧ w2.all wsb = true ∧ w3.all wsb = true
    ∧ w4.all wsb = true ∧ w5.all wsb = true

/-- Declarative reading of the IGNORECASE pattern
    SetCountLimit\([^,]*\)\s*--\s*once: a case-insensitive occurrence of
    the call opener, then a comma-free stretch, a closing parenthesis, and
    a line comment whose text begins (case-insensitively) with once. -/
def onceSpec (lua : Str) : Prop :=
  ∃ pre lit mid w1 w2 lit2 post : Str,
    lua = pre ++ lit ++ mid ++ [')'] ++ w1 ++ "--".toList ++ w2 ++ lit2 ++ post
    ∧ ciSame lit ("SetCountLimit(".toList)
    ∧ ',' ∉ mid
    ∧ w1.all wsb = true ∧ w2.all wsb = true
    ∧ ciSame lit2 ("once".toList)

def kPrice : String := "price"

/- Concrete scenario: a stored document holding two function entries, one
   of which the fresh extraction changes and one of which it leaves
   byte-identical. -/

def cTarget : Str := "target".toList
def cHelper : Str := "helper".toList
def luaTwoFuncs : Str := "function s.target(x)A2 end function s.helper(h)B end".toList
def funcTargetOld : Func := ⟨[['x']], "A1".toList⟩
def funcTargetNew : Func := ⟨[['x']], "A2".toList⟩
def funcHelper : Func := ⟨[['h']], ['B']⟩
def oldDocC1 : Doc :=
  [(kNameJp, FieldVal.vStr []), (kNameEn, FieldVal.vStr []),
   (kLuaRaw, FieldVal.vStr ("old".toList)),
   (kFunctions, FieldVal.vFuncs [(cTarget, funcTargetOld), (cHelper, funcHelper)]),
   (kMeta, FieldVal.vMeta (detect_meta luaTwoFuncs))]
def storeC1 : Store := [(1, oldDocC1)]
def fileC1 : FileInput := ⟨"c1.lua".toList, Except.ok luaTwoFuncs, none, none⟩

/-- First batch run of the scenario over the single unchanged file. -/
def runC3a : BatchState := runBatch (mkState storeC1) [fileC1]

/-- Second batch run, over the same file, against the store the first run
    produced. -/
def runC3b : BatchState := runBatch (mkState runC3a.store) [fileC1]

/-- A file whose comment lines all come after its first code line. -/
def luaTrailingComments : Str := "x = 1\n-- Alpha\n-- Beta".toList

/-- A count-limit call with first argument 1 and second argument id,
    followed by a third argument. -/
def luaThreeArgs : Str := "e.SetCountLimit(1, id, EFFECT_COUNT_CODE_OATH)".toList

/-- A candidate .lua filename that is not of the form c<digits>.lua but
    does have such a prefix. -/
def fileOddName : FileInput := ⟨"c1.lua.lua".toList, Except.ok [], none, none⟩

/-- A file whose read raises. -/
def fileReadFail : FileInput :=
  ⟨"c9.lua".toList, Except.error ("boom".toList), none, none⟩

/-- A store holding an externally written price field for card 1. -/
def storePrice : Store := [(1, [(kPrice, FieldVal.vExt 7)])]
def filePlain : FileInput := ⟨"c1.lua".toList, Except.ok [], none, none⟩

/-- A file whose first two lines are comments. -/
def luaTwoComments : Str := "-- a\n-- b".toList

/-- A candidate .lua file with no id in its name at all. -/
def fileNoId : FileInput := ⟨"x.lua".toList, Except.ok [], none, none⟩

/- ------------------------------------------------------------------ -/
/- Helper lemmas.                                                      -/
/- ------------------------------------------------------------------ -/

theorem dropLit_self (pre s : Str) : dropLit? pre (pre ++ s) = some s := by
  induction pre with
  | nil => rfl
  | cons c cs ih => simp [dropLit?, ih]

theorem dropLit_inv {pre s r : Str} (h : dropLit? pre s = some r) : s = pre ++ r := by
  induction pre generalizing s with
  | nil =>
    simp only [dropLit?, Option.some.injEq] at h
    simp [h]
  | cons c cs ih =>
    cases s with
    | nil => simp [dropLit?] at h
    | cons a as =>
      by_cases hc : a = c
      · subst hc
        simp only [dropLit?, if_pos rfl] at h
        simpa using ih h
      · simp [dropLit?, hc] at h

theorem takeWhile_append_all {p : Char → Bool} {a : Str} (b : Str)
    (ha : ∀ x ∈ a, p x = true) :
    (a ++ b).takeWhile p = a ++ b.takeWhile p := by
  induction a with
  | nil => rfl
  | cons c cs ih =>
    have hc : p c = true := ha c (by simp)
    simp [List.takeWhile_cons, hc, ih (fun x hx => ha x (by simp [hx]))]

theorem dropWhile_append_all {p : Char → Bool} {a : Str} (b : Str)
    (ha : ∀ x ∈ a, p x = true) :
    (a ++ b).dropWhile p = b.dropWhile p := by
  induction a with
  | nil => rfl
  | cons c cs ih =>
    have hc : p c = true := ha c (by simp)
    simp [List.dropWhile_cons, hc, ih (fun x hx => ha x (by simp [hx]))]

theorem takeWhile_head_false {p : Char → Bool} {c : Char} (rest : Str)
    (hc : p c = false) : (c :: rest).takeWhile p = [] := by
  simp [List.takeWhile_cons, hc]

theorem dropWhile_head_false {p : Char → Bool} {c : Char} (rest : Str)
    (hc : p c = false) : (c :: rest).dropWhile p = c :: rest := by
  simp [List.dropWhile_cons, hc]

theorem findUpTo_char {c : Char} {a : Str} (rest : Str) (h : c ∉ a) :
    findUpTo [c] (a ++ c :: rest) = some (a, rest) := by
  induction a with
  | nil => simp [findUpTo, dropLit?]
  | cons x xs ih =>
    have hx : ¬ x = c := by
      intro hxc
      exact h (by simp [hxc])
    have hdl : dropLit? [c] (x :: (xs ++ c :: rest)) = none := by
      simp [dropLit?, hx]
    simp only [List.cons_append, findUpTo, hdl, List.append_eq]
    rw [ih (fun hm => h (by simp [hm]))]
    rfl

theorem findUpTo_end (a rest : Str) (h : hasSub ("end".toList) a = false) :
    findUpTo ("end".toList) (a ++ "end".toList ++ rest) = some (a, rest) := by
  have hEND : "end".toList = ['e', 'n', 'd'] := rfl
  induction a with
  | nil => simp [findUpTo, dropLit?, hEND]
  | cons c cs ih =>
    have hparts : (dropLit? ("end".toList) (c :: cs)).isSome = false
        ∧ hasSub ("end".toList) cs = false := by
      have := h
      simp only [hasSub, Bool.or_eq_false_iff] at this
      exact this
    have hne : dropLit? ("end".toList) (c :: (cs ++ "end".toList ++ rest)) = none := by
      rw [hEND]
      by_cases hc : c = 'e'
      · subst hc
        rcases cs with _ | ⟨x, _ | ⟨y, cs2⟩⟩
        · simp [dropLit?]
        · by_cases hx : x = 'n'
          · subst hx
            simp [dropLit?]
          · simp [dropLit?, hx]
        · by_cases hx : x = 'n'
          · by_cases hy : y = 'd'
            · exfalso
              subst hx
              subst hy
              have : (dropLit? ("end".toList) ('e' :: 'n' :: 'd' :: cs2)).isSome = true := by
                simp [hEND, dropLit?]
              rw [hparts.1] at this
              exact Bool.false_ne_true this
            · simp [dropLit?, hy]
          · simp [dropLit?, hx]
      · simp [dropLit?, hc]
    simp only [List.cons_append, findUpTo, hne, List.append_eq]
    rw [ih hparts.2]
    rfl

theorem searchAnySuffix_iff (m : Str → Bool) (s : Str) :
    searchAnySuffix m s = true ↔ ∃ n, m (s.drop n) = true := by
  induction s with
  | nil =>
    simp only [searchAnySuffix, List.drop_nil]
    exact ⟨fun h => ⟨0, h⟩, fun ⟨_, h⟩ => h⟩
  | cons c rest ih =>
    simp only [searchAnySuffix, Bool.or_eq_true, ih]
    constructor
    · rintro (h | ⟨n, hn⟩)
      · exact ⟨0, h⟩
      · exact ⟨n + 1, hn⟩
    · rintro ⟨n, hn⟩
      cases n with
      | zero => exact Or.inl hn
      | succ k => exact Or.inr ⟨k, hn⟩

/- ------------------------------------------------------------------ -/
/- Claim theorems.                                                     -/
/- ------------------------------------------------------------------ -/

/-- Claim C1.  The claim states that function entries of a stored document
    that are not in the update set are never deleted by an update.  The
    code violates it: the update document collects only the changed
    function entries under the key functions, so the $set replaces the
    whole functions field and drops the unchanged helper entry.  Here the
    stored document holds target (stale) and helper (identical to the
    fresh extraction); after the single write the helper entry is gone. -/
theorem C1_unchanged_function_entry_deleted :
    lookupF [(cTarget, funcTargetOld), (cHelper, funcHelper)] cHelper = some funcHelper
    ∧ extract_functions luaTwoFuncs = [(cTarget, funcTargetNew), (cHelper, funcHelper)]
    ∧ (processFile storeC1 fileC1).outcome = Outcome.upd
    ∧ (storeFind (processFile storeC1 fileC1).store 1).map (fun d => lookupD d kFunctions)
        = some (some (FieldVal.vFuncs [(cTarget, funcTargetNew)])) :=
  ⟨rfl, rfl, rfl, rfl⟩

/-- Claim C2.  The claim states that only leading comment lines feed the
    two names and that comment lines after the first non-blank non-comment
    line contribute nothing.  The code walks every line (its loop
    continues on non-comment lines although its own comment says stop), so
    on a file whose comments all follow a code line it still extracts both
    names instead of the empty strings the claim requires. -/
theorem C2_trailing_comments_contribute :
    extract_names luaTrailingComments = ("Alpha".toList, "Beta".toList)
    ∧ ¬ extract_names luaTrailingComments = ([], []) :=
  ⟨rfl, by decide⟩

/-- Claim C3.  The claim states that a second run over an unchanged file
    set against the store produced by the first run issues zero writes and
    yields skipped everywhere.  Because an update replaces the whole
    functions field with only the changed entries (see C1), the first run
    deletes the unchanged helper entry, and the second run finds it
    missing, writes again, and reports updated instead of skipped. -/
theorem C3_second_run_not_idempotent :
    runC3a.updated = 1 ∧ runC3a.writes = 1
    ∧ runC3b.writes = 1 ∧ runC3b.updated = 1 ∧ runC3b.skipped = 0 :=
  ⟨rfl, rfl, rfl, rfl, rfl⟩

/-- Claim C4, counterexample.  The claim reads has_HOPT_like as true
    whenever some count-limit directive has first argument 1 and second
    argument id.  On a three-argument call with exactly those first two
    arguments the claim predicts true, but the source pattern demands the
    closing parenthesis right after id, so the code yields false. -/
theorem C4_counterexample_three_args :
    specCountLimitOneId luaThreeArgs = true
    ∧ (detect_meta luaThreeArgs).has_HOPT_like = false :=
  ⟨rfl, rfl⟩

/-- Claim C7, counterexample.  The claim counts every candidate file whose
    name does not match c<digits>.lua as a skip with zero store
    operations.  The source uses re.match, an anchored prefix match, so
    the candidate c1.lua.lua — which is not of the form c<digits>.lua —
    is processed as card 1: one find and one write are issued. -/
theorem C7_counterexample_prefix_name :
    specCardFileName ("c1.lua.lua".toList) = false
    ∧ (processFile [] fileOddName).finds = 1
    ∧ (processFile [] fileOddName).writes = 1
    ∧ ¬ (processFile [] fileOddName).outcome = Outcome.skipNoId :=
  ⟨rfl, rfl, rfl, by decide⟩

theorem extract_names_go_inv (lines : List Str) :
    ∀ jp en : Str, (en ≠ [] → jp ≠ []) →
      (extract_names_go lines jp en).2 ≠ [] → (extract_names_go lines jp en).1 ≠ [] := by
  induction lines with
  | nil => exact fun jp en h h2 => h h2
  | cons line rest ih =>
    intro jp en h
    simp only [extract_names_go]
    cases hd : dropLit? ('-' :: '-' :: []) (pstrip line) with
    | none => exact ih jp en h
    | some tail =>
      by_cases hjp : jp.isEmpty
      · simp only [hjp, if_true]
        refine ih _ en ?_
        intro hen
        exact absurd (List.isEmpty_iff.mp hjp) (h hen)
      · simp only [hjp, if_false]
        by_cases hen : en.isEmpty
        · simp only [hen, if_true]
          exact fun _ => fun hjpnil => hjp (List.isEmpty_iff.mpr hjpnil)
        · simp only [hen, if_false]
          exact ih jp en h

/-- Claim C9.  The extractor fills the first name before the second: for
    every input text, if the extracted second name is non-empty then so is
    the first.  The loop state always satisfies this, because the second
    slot is only ever filled when the first already holds a non-empty
    text. -/
theorem C9_second_name_implies_first (lua : Str) :
    (extract_names lua).2 ≠ [] → (extract_names lua).1 ≠ [] :=
  extract_names_go_inv (pySplitlines lua) [] [] (fun h => absurd rfl h)

/-- Witness for C9 at a file whose first two lines are comments. -/
theorem C9_witness :
    (extract_names luaTwoComments).2 ≠ [] ∧ (extract_names luaTwoComments).1 ≠ [] :=
  ⟨by decide, C9_second_name_implies_first luaTwoComments (by decide)⟩

theorem countOutcome_total (o : Outcome) :
    countIns o + countUpd o + countSkip o + countErr o = 1 := by
  cases o <;> rfl

theorem stepFold_counter_sum (st : BatchState) (f : FileInput) :
    (stepFold st f).inserted + (stepFold st f).updated
      + (stepFold st f).skipped + (stepFold st f).errors
    = st.inserted + st.updated + st.skipped + st.errors + 1 := by
  simp only [stepFold]
  have := countOutcome_total (processFile st.store f).outcome
  omega

/-- Claim C10.  Every candidate file of a batch contributes exactly one
    outcome to exactly one of the four counters, so after the batch the
    sum of inserted, updated, skipped and errors has grown by exactly the
    number of candidate files. -/
theorem C10_counter_partition (files : List FileInput) (st : BatchState) :
    (runBatch st files).inserted + (runBatch st files).updated
      + (runBatch st files).skipped + (runBatch st files).errors
    = st.inserted + st.updated + st.skipped + st.errors + files.length := by
  induction files generalizing st with
  | nil => simp [runBatch]
  | cons f rest ih =>
    have hstep : runBatch st (f :: rest) = runBatch (stepFold st f) rest := rfl
    rw [hstep, ih (stepFold st f), stepFold_counter_sum]
    simp only [List.length_cons]
    omega

/-- Claim C7, amended: for every candidate file whose name the anchored
    prefix pattern c<digits>.lua fails to match, the file is counted as a
    skip (not an error) and no store operation at all — neither a find nor
    a write — is performed for it. -/
theorem C7_no_id_skip (st : BatchState) (f : FileInput) (c : Str)
    (hr : f.readRes = Except.ok c) (hid : parseCardId f.fname = none) :
    (processFile st.store f).outcome = Outcome.skipNoId
    ∧ (processFile st.store f).finds = 0
    ∧ (processFile st.store f).writes = 0
    ∧ (processFile st.store f).store = st.store
    ∧ (stepFold st f).skipped = st.skipped + 1
    ∧ (stepFold st f).errors = st.errors := by
  have hp : processFile st.store f
      = ⟨st.store, Outcome.skipNoId, 0, 0, [kSkipNoId ++ f.fname]⟩ := by
    simp [processFile, hr, hid]
  refine ⟨by rw [hp], by rw [hp], by rw [hp], by rw [hp], ?_, ?_⟩
  · simp [stepFold, hp, countSkip]
  · simp [stepFold, hp, countErr]

/-- Witness for the amended C7 at the filename x.lua. -/
theorem C7_witness :
    (processFile (mkState []).store fileNoId).outcome = Outcome.skipNoId
    ∧ (processFile (mkState []).store fileNoId).finds = 0
    ∧ (processFile (mkState []).store fileNoId).writes = 0
    ∧ (processFile (mkState []).store fileNoId).store = (mkState []).store
    ∧ (stepFold (mkState []) fileNoId).skipped = (mkState []).skipped + 1
    ∧ (stepFold (mkState []) fileNoId).errors = (mkState []).errors :=
  C7_no_id_skip (mkState []) fileNoId [] rfl rfl

/-- Claim C6.  No exception escapes the per-file iteration: when the file
    read raises, when find_one raises after the id gate, or when
    update_one raises on a non-empty update set, the iteration yields the
    error outcome, bumps the error counter by exactly one, appends a log
    line containing the filename or the card id, and the batch continues
    with the remaining files. -/
theorem C6_per_file_error_handling (st : BatchState) (f : FileInput)
    (rest : List FileInput)
    (h : (∃ e, f.readRes = Except.error e)
       ∨ ((∃ c i, f.readRes = Except.ok c ∧ parseCardId f.fname = some i)
            ∧ (∃ e, f.findErr = some e))
       ∨ (∃ c i, f.readRes = Except.ok c ∧ parseCardId f.fname = some i
            ∧ f.findErr = none
            ∧ (updateFields (storeFind st.store i) c).isEmpty = false
            ∧ (∃ e, f.upsertErr = some e))) :
    (stepFold st f).errors = st.errors + 1
    ∧ (∃ line, (processFile st.store f).log = [line]
        ∧ (containsSeq f.fname line
            ∨ ∃ i, parseCardId f.fname = some i ∧ containsSeq (natChars i) line))
    ∧ runBatch st (f :: rest) = runBatch (stepFold st f) rest := by
  rcases h with ⟨e, he⟩ | ⟨⟨c, i, hc, hi⟩, ⟨e, he⟩⟩ | ⟨c, i, hc, hi, hfind, huf, e, he⟩
  · have hp : processFile st.store f
        = ⟨st.store, Outcome.errRead, 0, 0, [kErrReading ++ f.fname ++ kColonSp ++ e]⟩ := by
      simp [processFile, he]
    refine ⟨by simp [stepFold, hp, countErr], ?_, rfl⟩
    refine ⟨kErrReading ++ f.fname ++ kColonSp ++ e, by rw [hp], Or.inl ?_⟩
    exact ⟨kErrReading, kColonSp ++ e, by simp⟩
  · have hp : processFile st.store f
        = ⟨st.store, Outcome.errFind, 1, 0, [kErrFind ++ natChars i ++ kColonSp ++ e]⟩ := by
      simp [processFile, hc, hi, he]
    refine ⟨by simp [stepFold, hp, countErr], ?_, rfl⟩
    refine ⟨kErrFind ++ natChars i ++ kColonSp ++ e, by rw [hp], Or.inr ?_⟩
    exact ⟨i, hi, kErrFind, kColonSp ++ e, by simp⟩
  · have hp : processFile st.store f
        = ⟨st.store, Outcome.errUpsert, 1, 1, [kErrUpsert ++ natChars i ++ kColonSp ++ e]⟩ := by
      simp [processFile, hc, hi, hfind, huf, he]
    refine ⟨by simp [stepFold, hp, countErr], ?_, rfl⟩
    refine ⟨kErrUpsert ++ natChars i ++ kColonSp ++ e, by rw [hp], Or.inr ?_⟩
    exact ⟨i, hi, kErrUpsert, kColonSp ++ e, by simp⟩

/-- Witness for C6 at a file whose read raises. -/
theorem C6_witness :
    (stepFold (mkState []) fileReadFail).errors = (mkState []).errors + 1
    ∧ (∃ line, (processFile (mkState []).store fileReadFail).log = [line]
        ∧ (containsSeq fileReadFail.fname line
            ∨ ∃ i, parseCardId fileReadFail.fname = some i
                ∧ containsSeq (natChars i) line))
    ∧ runBatch (mkState []) (fileReadFail :: [])
        = runBatch (stepFold (mkState []) fileReadFail) [] :=
  C6_per_file_error_handling (mkState []) fileReadFail []
    (Or.inl ⟨"boom".toList, rfl⟩)

theorem memIteSingleton {α : Type} {c : Prop} [Decidable c] {x kv : α}
    (h : kv ∈ (if c then [x] else [])) : kv = x := by
  split at h
  · simpa using h
  · simp at h

theorem memIteSingletonR {α : Type} {c : Prop} [Decidable c] {x kv : α}
    (h : kv ∈ (if c then [] else [x])) : kv = x := by
  split at h
  · simp at h
  · simpa using h

theorem updateFields_keys {ex : Option Doc} {lua : Str} {kv : String × FieldVal}
    (h : kv ∈ updateFields ex lua) :
    kv.1 = kNameJp ∨ kv.1 = kNameEn ∨ kv.1 = kLuaRaw
      ∨ kv.1 = kFunctions ∨ kv.1 = kMeta := by
  simp only [updateFields, List.mem_append] at h
  rcases h with ((((h | h) | h) | h) | h)
  · exact Or.inl (congrArg Prod.fst (memIteSingleton h))
  · exact Or.inr (Or.inl (congrArg Prod.fst (memIteSingleton h)))
  · exact Or.inr (Or.inr (Or.inl (congrArg Prod.fst (memIteSingleton h))))
  · exact Or.inr (Or.inr (Or.inr (Or.inl (congrArg Prod.fst (memIteSingletonR h)))))
  · exact Or.inr (Or.inr (Or.inr (Or.inr (congrArg Prod.fst (memIteSingletonR h)))))

theorem lookupD_setFieldD_ne {d : Doc} {k' : String} {v : FieldVal} {k : String}
    (h : ¬ k' = k) : lookupD (setFieldD d k' v) k = lookupD d k := by
  induction d with
  | nil => simp [setFieldD, lookupD, h]
  | cons kv t ih =>
    obtain ⟨a, b⟩ := kv
    by_cases ha : a = k'
    · simp only [setFieldD, ha, if_true]
      have hak : ¬ a = k := fun hk => h (ha ▸ hk ▸ rfl)
      simp [lookupD, h, hak, ha]
    · simp only [setFieldD, ha, if_false, lookupD]
      by_cases hb : a = k
      · simp [hb]
      · simp [hb, ih]

theorem lookupD_applySet_skip {uf : Doc} {k : String}
    (h : ∀ kv ∈ uf, ¬ kv.1 = k) :
    ∀ d : Doc, lookupD (applySet d uf) k = lookupD d k := by
  induction uf with
  | nil => intro d; rfl
  | cons kv t ih =>
    intro d
    have hstep : applySet d (kv :: t) = applySet (setFieldD d kv.1 kv.2) t := rfl
    rw [hstep, ih (fun x hx => h x (by simp [hx])),
      lookupD_setFieldD_ne (h kv (by simp))]

theorem storeFind_map_set (t : Store) (i : Nat) (uf : Doc) (j : Nat)
    (hne : ¬ i = j) :
    storeFind (t.map (fun p => if p.1 = i then (p.1, applySet p.2 uf) else p)) j
      = storeFind t j := by
  induction t with
  | nil => rfl
  | cons p t ih =>
    simp only [List.map_cons]
    by_cases ha : p.1 = i
    · have haj : ¬ p.1 = j := fun hj => hne (ha ▸ hj ▸ rfl)
      rw [if_pos ha]
      simp only [storeFind]
      rw [if_neg haj, if_neg haj]
      exact ih
    · rw [if_neg ha]
      simp only [storeFind]
      by_cases hb : p.1 = j
      · rw [if_pos hb, if_pos hb]
      · rw [if_neg hb, if_neg hb]
        exact ih

theorem storeFind_map_set_self (t : Store) (i : Nat) (uf : Doc) (d : Doc)
    (hd : storeFind t i = some d) :
    storeFind (t.map (fun p => if p.1 = i then (p.1, applySet p.2 uf) else p)) i
      = some (applySet d uf) := by
  induction t with
  | nil => simp [storeFind] at hd
  | cons p t ih =>
    simp only [List.map_cons]
    by_cases ha : p.1 = i
    · simp only [storeFind, ha, if_true, Option.some.injEq] at hd
      rw [if_pos ha]
      simp only [storeFind]
      rw [if_pos ha, hd]
    · simp only [storeFind, ha, if_false] at hd
      rw [if_neg ha]
      simp only [storeFind]
      rw [if_neg ha]
      exact ih hd

theorem storeFind_append_ne (t : Store) (i j : Nat) (x : Doc) (hne : ¬ i = j) :
    storeFind (t ++ [(i, x)]) j = storeFind t j := by
  induction t with
  | nil => simp [storeFind, hne]
  | cons p t ih =>
    simp only [List.cons_append, storeFind]
    by_cases hb : p.1 = j
    · rw [if_pos hb, if_pos hb]
    · rw [if_neg hb, if_neg hb]
      exact ih

theorem storeFind_storeUpsert_ne (st : Store) (i j : Nat) (uf : Doc)
    (hne : ¬ i = j) : storeFind (storeUpsert st i uf) j = storeFind st j := by
  unfold storeUpsert
  split
  · exact storeFind_map_set st i uf j hne
  · exact storeFind_append_ne st i j (applySet [] uf) hne

theorem storeFind_storeUpsert_self (st : Store) (i : Nat) (uf : Doc) (d : Doc)
    (hd : storeFind st i = some d) :
    storeFind (storeUpsert st i uf) i = some (applySet d uf) := by
  unfold storeUpsert
  rw [hd]
  simp only [Option.isSome_some, if_true]
  exact storeFind_map_set_self st i uf d hd

theorem processFile_preserves_foreign (store : Store) (f : FileInput) (i : Nat)
    (d : Doc) (k : String)
    (hk : ¬ k ∈ [kNameJp, kNameEn, kLuaRaw, kFunctions, kMeta])
    (hd : storeFind store i = some d) :
    ∃ d', storeFind (processFile store f).store i = some d'
      ∧ lookupD d' k = lookupD d k := by
  have hkeys : ∀ ex lua, ∀ kv ∈ updateFields ex lua, ¬ kv.1 = k := by
    intro ex lua kv hkv hkk
    rcases updateFields_keys hkv with h5 | h5 | h5 | h5 | h5 <;>
      exact hk (by simp [← hkk, h5])
  cases hr : f.readRes with
  | error e => exact ⟨d, by simpa [processFile, hr] using hd, rfl⟩
  | ok c =>
    cases hid : parseCardId f.fname with
    | none => exact ⟨d, by simpa [processFile, hr, hid] using hd, rfl⟩
    | some j =>
      cases hfe : f.findErr with
      | some e => exact ⟨d, by simpa [processFile, hr, hid, hfe] using hd, rfl⟩
      | none =>
        by_cases hemp : (updateFields (storeFind store j) c).isEmpty
        · exact ⟨d, by simpa [processFile, hr, hid, hfe, hemp] using hd, rfl⟩
        · cases hue : f.upsertErr with
          | some e =>
            exact ⟨d, by simpa [processFile, hr, hid, hfe, hemp, hue] using hd, rfl⟩
          | none =>
            have hst : (processFile store f).store
                = storeUpsert store j (updateFields (storeFind store j) c) := by
              by_cases hex : (storeFind store j).isNone <;>
                simp [processFile, hr, hid, hfe, hemp, hue, hex]
            by_cases hij : j = i
            · subst hij
              refine ⟨applySet d (updateFields (storeFind store j) c), ?_, ?_⟩
              · rw [hst, storeFind_storeUpsert_self store j _ d hd]
              · exact lookupD_applySet_skip (hkeys _ _) d
            · exact ⟨d, by rw [hst, storeFind_storeUpsert_ne store j i _ hij, hd], rfl⟩

/-- Claim C5.  Every write of the pipeline is a partial-field merge
    touching only the five fields the update set can name, so a top-level
    field such as an externally added price field is preserved, with its
    value, across any number of runs of the batch. -/
theorem C5_foreign_fields_preserved (files : List FileInput) (st : BatchState)
    (i : Nat) (d : Doc) (k : String)
    (hk : ¬ k ∈ [kNameJp, kNameEn, kLuaRaw, kFunctions, kMeta])
    (hd : storeFind st.store i = some d) :
    ∃ d', storeFind (runBatch st files).store i = some d'
      ∧ lookupD d' k = lookupD d k := by
  induction files generalizing st d with
  | nil => exact ⟨d, hd, rfl⟩
  | cons f rest ih =>
    obtain ⟨d1, hd1, hl1⟩ := processFile_preserves_foreign st.store f i d k hk hd
    obtain ⟨d2, hd2, hl2⟩ := ih (stepFold st f) d1 hd1
    exact ⟨d2, hd2, by rw [hl2, hl1]⟩

/-- Witness for C5: a store holding an external price field for card 1,
    run over one freshly extracted file for card 1. -/
theorem C5_witness :
    ∃ d', storeFind (runBatch (mkState storePrice) [filePlain]).store 1 = some d'
      ∧ lookupD d' kPrice = lookupD [(kPrice, FieldVal.vExt 7)] kPrice :=
  C5_foreign_fields_preserved [filePlain] (mkState storePrice) 1
    [(kPrice, FieldVal.vExt 7)] kPrice (by decide) rfl

theorem matchFuncAt_funcDef (n p b suffix : Str) (hn : n ≠ [])
    (hnw : n.all isWordChar = true) (hp : (')' : Char) ∉ p)
    (hb : hasSub ("end".toList) b = false) :
    matchFuncAt (funcDef n p b ++ suffix) = some ((n, p, b), suffix) := by
  have hw : ∀ x ∈ n, isWordChar x = true := fun x hx => List.all_eq_true.mp hnw x hx
  have harr : funcDef n p b ++ suffix
      = "function".toList ++ (' ' :: 's' :: '.' ::
          (n ++ '(' :: (p ++ ')' :: (b ++ ("end".toList ++ suffix))))) := by
    have hlit : ("function s.".toList : Str)
        = "function".toList ++ (' ' :: 's' :: '.' :: []) := rfl
    simp [funcDef, hlit, List.append_assoc]
  rw [harr]
  unfold matchFuncAt
  rw [dropLit_self]
  simp only []
  rw [if_neg (by simp [wsb])]
  rw [show List.dropWhile wsb (' ' :: 's' :: '.' :: (n ++ '(' :: (p ++ ')' :: (b ++ ("end".toList ++ suffix))))) = 's' :: '.' :: (n ++ '(' :: (p ++ ')' :: (b ++ ("end".toList ++ suffix)))) from by simp [List.dropWhile_cons, wsb]]
  rw [show dropLit? ("s.".toList) ('s' :: '.' :: (n ++ '(' :: (p ++ ')' :: (b ++ ("end".toList ++ suffix))))) = some (n ++ '(' :: (p ++ ')' :: (b ++ ("end".toList ++ suffix)))) from dropLit_self ("s.".toList) _]
  simp only []
  rw [takeWhile_append_all _ hw]
  rw [takeWhile_head_false _ (show isWordChar '(' = false from rfl)]
  rw [List.append_nil]
  rw [if_neg (by simpa using hn)]
  rw [dropWhile_append_all _ hw]
  rw [dropWhile_head_false _ (show isWordChar '(' = false from rfl)]
  rw [dropWhile_head_false _ (show wsb '(' = false from rfl)]
  rw [show dropLit? ['('] ('(' :: (p ++ ')' :: (b ++ ("end".toList ++ suffix)))) = some (p ++ ')' :: (b ++ ("end".toList ++ suffix))) from dropLit_self ['('] _]
  simp only []
  rw [findUpTo_char _ hp]
  simp only []
  rw [← List.append_assoc b ("end".toList) suffix]
  rw [findUpTo_end b suffix hb]

theorem findMatchesF_nil (fuel : Nat) : findMatchesF fuel [] = [] := by
  cases fuel <;> rfl

theorem findMatchesF_step (fuel : Nat) (s : Str) (hs : s ≠ []) (hf : fuel ≠ 0) :
    findMatchesF fuel s
      = match matchFuncAt s with
        | some (m, r) => m :: findMatchesF (fuel - 1) r
        | none => findMatchesF (fuel - 1) s.tail := by
  cases fuel with
  | zero => exact absurd rfl hf
  | succ k =>
    cases s with
    | nil => exact absurd rfl hs
    | cons c rest => rfl

theorem funcDef_ne_nil (n p b : Str) : funcDef n p b ≠ [] := by
  simp [funcDef]

theorem findMatchesF_funcDef (fuel : Nat) (n p b : Str) (hf : fuel ≠ 0)
    (hn : n ≠ []) (hnw : n.all isWordChar = true) (hp : (')' : Char) ∉ p)
    (hb : hasSub ("end".toList) b = false) :
    findMatchesF fuel (funcDef n p b) = [(n, p, b)] := by
  rw [findMatchesF_step fuel _ (funcDef_ne_nil n p b) hf]
  have hm : matchFuncAt (funcDef n p b) = some ((n, p, b), []) := by
    have := matchFuncAt_funcDef n p b [] hn hnw hp hb
    simpa using this
  rw [hm]
  simp only []
  rw [findMatchesF_nil]

theorem findMatchesF_two_defs (n ps1 b1 ps2 b2 : Str) (hn : n ≠ [])
    (hnw : n.all isWordChar = true)
    (hp1 : (')' : Char) ∉ ps1) (hp2 : (')' : Char) ∉ ps2)
    (hb1 : hasSub ("end".toList) b1 = false)
    (hb2 : hasSub ("end".toList) b2 = false) :
    findMatchesF (funcDef n ps1 b1 ++ funcDef n ps2 b2).length
        (funcDef n ps1 b1 ++ funcDef n ps2 b2)
      = [(n, ps1, b1), (n, ps2, b2)] := by
  have h1 : 1 ≤ (funcDef n ps1 b1).length :=
    List.length_pos.mpr (funcDef_ne_nil n ps1 b1)
  have h2 : 1 ≤ (funcDef n ps2 b2).length :=
    List.length_pos.mpr (funcDef_ne_nil n ps2 b2)
  have hlen : (funcDef n ps1 b1 ++ funcDef n ps2 b2).length
      = (funcDef n ps1 b1).length + (funcDef n ps2 b2).length :=
    List.length_append _ _
  rw [findMatchesF_step _ _ (by simp [funcDef]) (by omega)]
  rw [matchFuncAt_funcDef n ps1 b1 _ hn hnw hp1 hb1]
  simp only []
  rw [findMatchesF_funcDef _ n ps2 b2 (by omega) hn hnw hp2 hb2]

/-- Claim C8.  For a text made of two definitions of the shape
    function s.<name>(<params>) <body> end with the same name — with the
    name of word characters, no closing parenthesis among the parameters
    and no substring end inside either body, so that the shape is the one
    the pattern is written for — extract_functions returns exactly one
    entry for that name, holding the split parameters and stripped body of
    the later definition: last write wins, no error. -/
theorem C8_last_write_wins (n ps1 b1 ps2 b2 : Str) (hn : n ≠ [])
    (hnw : n.all isWordChar = true)
    (hp1 : (')' : Char) ∉ ps1) (hp2 : (')' : Char) ∉ ps2)
    (hb1 : hasSub ("end".toList) b1 = false)
    (hb2 : hasSub ("end".toList) b2 = false) :
    extract_functions (funcDef n ps1 b1 ++ funcDef n ps2 b2)
      = [(n, ⟨split_params ps2, pstrip b2⟩)] := by
  unfold extract_functions
  rw [findMatchesF_two_defs n ps1 b1 ps2 b2 hn hnw hp1 hp2 hb1 hb2]
  simp [dictInsertF]

/-- Witness for C8: two definitions of s.target with different parameters
    and bodies. -/
theorem C8_witness :
    extract_functions (funcDef ("target".toList) ['a'] (" x1 ".toList)
        ++ funcDef ("target".toList) ['c'] (" x2 ".toList))
      = [("target".toList, ⟨split_params ['c'], pstrip (" x2 ".toList)⟩)] :=
  C8_last_write_wins ("target".toList) ['a'] (" x1 ".toList) ['c'] (" x2 ".toList)
    (by decide) (by decide) (by decide) (by decide) (by decide) (by decide)

theorem wsTake_all (x : Str) : (x.takeWhile wsb).all wsb = true :=
  List.all_eq_true.mpr (fun _ ha => List.mem_takeWhile_imp ha)

theorem wsTake_drop (x : Str) : x = x.takeWhile wsb ++ x.dropWhile wsb :=
  (List.takeWhile_append_dropWhile wsb x).symm

theorem dropLitCI_inv {pre s r : Str} (h : dropLitCI? pre s = some r) :
    ∃ lit, s = lit ++ r ∧ ciSame lit pre := by
  induction pre generalizing s with
  | nil =>
    simp only [dropLitCI?, Option.some.injEq] at h
    exact ⟨[], by simp [h], by simp [ciSame]⟩
  | cons p ps ih =>
    cases s with
    | nil => simp [dropLitCI?] at h
    | cons c cs =>
      by_cases hc : c.toLower = p.toLower
      · simp only [dropLitCI?, if_pos hc] at h
        obtain ⟨lit, hcs, hci⟩ := ih h
        refine ⟨c :: lit, by simp [hcs], ?_⟩
        simp only [ciSame, List.map_cons] at hci ⊢
        rw [hc, hci]
      · simp [dropLitCI?, hc] at h

theorem dropLitCI_fwd {pre lit : Str} (r : Str) (h : ciSame lit pre) :
    dropLitCI? pre (lit ++ r) = some r := by
  induction pre generalizing lit with
  | nil =>
    have : lit = [] := by simpa [ciSame] using h
    simp [this, dropLitCI?]
  | cons p ps ih =>
    cases lit with
    | nil => simp [ciSame] at h
    | cons c cs =>
      simp only [ciSame, List.map_cons, List.cons.injEq] at h
      simp only [List.cons_append, dropLitCI?, if_pos h.1]
      exact ih h.2

theorem ciHead_not_ws {x y : Char} (hx : x.toLower = y) (hy : wsb y = false) :
    wsb x = false := by
  by_cases h : wsb x = true
  · have hx4 : ((x = ' ' ∨ x = '\t') ∨ x = '\r') ∨ x = '\n' := by
      simpa [wsb, Char.isWhitespace, decide_eq_true_eq] using h
    rcases hx4 with ((h4 | h4) | h4) | h4 <;> subst h4 <;> rw [← hx] at hy <;>
      simp [wsb] at hy
  · simpa using h

theorem mHOPT_inv {s : Str} (h : mHOPT s = true) :
    ∃ w1 w2 w3 w4 w5 post : Str,
      s = ".SetCountLimit".toList ++ (w1 ++ '(' :: (w2 ++ '1' :: (w3 ++ ',' ::
        (w4 ++ ("id".toList ++ (w5 ++ ')' :: post))))))
      ∧ w1.all wsb = true ∧ w2.all wsb = true ∧ w3.all wsb = true
      ∧ w4.all wsb = true ∧ w5.all wsb = true := by
  unfold mHOPT at h
  split at h
  · exact absurd h (by simp)
  next a h1 =>
  split at h
  · exact absurd h (by simp)
  next b h2 =>
  split at h
  · exact absurd h (by simp)
  next c h3 =>
  split at h
  · exact absurd h (by simp)
  next d h4 =>
  split at h
  · exact absurd h (by simp)
  next e h5 =>
  simp only [Option.isSome_iff_exists] at h
  obtain ⟨post, h6⟩ := h
  have ea := dropLit_inv h1
  have eb := dropLit_inv h2
  have ec := dropLit_inv h3
  have ed := dropLit_inv h4
  have ee := dropLit_inv h5
  have ef := dropLit_inv h6
  have q5 : e = List.takeWhile wsb e ++ (')' :: post) := by
    conv_lhs => rw [wsTake_drop e, ef]
    try rfl
  have q4 : d = List.takeWhile wsb d
      ++ ("id".toList ++ (List.takeWhile wsb e ++ (')' :: post))) := by
    conv_lhs => rw [wsTake_drop d, ee, q5]
    try rfl
  have q3 : c = List.takeWhile wsb c ++ (',' :: (List.takeWhile wsb d
      ++ ("id".toList ++ (List.takeWhile wsb e ++ (')' :: post))))) := by
    conv_lhs => rw [wsTake_drop c, ed, q4]
    try rfl
  have q2 : b = List.takeWhile wsb b ++ ('1' :: (List.takeWhile wsb c
      ++ (',' :: (List.takeWhile wsb d
      ++ ("id".toList ++ (List.takeWhile wsb e ++ (')' :: post))))))) := by
    conv_lhs => rw [wsTake_drop b, ec, q3]
    try rfl
  have q1 : a = List.takeWhile wsb a ++ ('(' :: (List.takeWhile wsb b
      ++ ('1' :: (List.takeWhile wsb c ++ (',' :: (List.takeWhile wsb d
      ++ ("id".toList ++ (List.takeWhile wsb e ++ (')' :: post))))))))) := by
    conv_lhs => rw [wsTake_drop a, eb, q2]
    try rfl
  refine ⟨a.takeWhile wsb, b.takeWhile wsb, c.takeWhile wsb, d.takeWhile wsb,
    e.takeWhile wsb, post, ?_, wsTake_all a, wsTake_all b, wsTake_all c,
    wsTake_all d, wsTake_all e⟩
  rw [ea]
  conv_lhs => rw [q1]

theorem dropLit_self_cons (c : Char) (s : Str) : dropLit? [c] (c :: s) = some s := by
  simp [dropLit?]

theorem dropWhile_id (s : Str) :
    List.dropWhile wsb ("id".toList ++ s) = "id".toList ++ s := rfl

theorem allws_mem {w : Str} (hw : w.all wsb = true) : ∀ x ∈ w, wsb x = true :=
  fun x hx => List.all_eq_true.mp hw x hx

theorem mHOPT_fwd (w1 w2 w3 w4 w5 post : Str)
    (h1 : w1.all wsb = true) (h2 : w2.all wsb = true) (h3 : w3.all wsb = true)
    (h4 : w4.all wsb = true) (h5 : w5.all wsb = true) :
    mHOPT (".SetCountLimit".toList ++ (w1 ++ '(' :: (w2 ++ '1' :: (w3 ++ ',' ::
      (w4 ++ ("id".toList ++ (w5 ++ ')' :: post))))))) = true := by
  unfold mHOPT
  rw [dropLit_self]
  simp only []
  rw [dropWhile_append_all _ (allws_mem h1),
    dropWhile_head_false _ (show wsb '(' = false from rfl)]
  rw [dropLit_self_cons '(' _]
  simp only []
  rw [dropWhile_append_all _ (allws_mem h2),
    dropWhile_head_false _ (show wsb '1' = false from rfl)]
  rw [dropLit_self_cons '1' _]
  simp only []
  rw [dropWhile_append_all _ (allws_mem h3),
    dropWhile_head_false _ (show wsb ',' = false from rfl)]
  rw [dropLit_self_cons ',' _]
  simp only []
  rw [dropWhile_append_all _ (allws_mem h4), dropWhile_id _]
  rw [dropLit_self ("id".toList) _]
  simp only []
  rw [dropWhile_append_all _ (allws_mem h5),
    dropWhile_head_false _ (show wsb ')' = false from rfl)]
  rw [dropLit_self_cons ')' _]
  rfl

theorem searchHOPT_iff (lua : Str) :
    searchAnySuffix mHOPT lua = true ↔ hoptSpec lua := by
  rw [searchAnySuffix_iff]
  constructor
  · rintro ⟨k, hk⟩
    obtain ⟨w1, w2, w3, w4, w5, post, hshape, ha1, ha2, ha3, ha4, ha5⟩ :=
      mHOPT_inv hk
    refine ⟨lua.take k, w1, w2, w3, w4, w5, post, ?_, ha1, ha2, ha3, ha4, ha5⟩
    conv_lhs => rw [← List.take_append_drop k lua, hshape]
    simp [List.append_assoc]
  · rintro ⟨pre, w1, w2, w3, w4, w5, post, hshape, ha1, ha2, ha3, ha4, ha5⟩
    refine ⟨pre.length, ?_⟩
    have hdrop : lua.drop pre.length
        = ".SetCountLimit".toList ++ (w1 ++ '(' :: (w2 ++ '1' :: (w3 ++ ',' ::
          (w4 ++ ("id".toList ++ (w5 ++ ')' :: post)))))) := by
      rw [hshape]
      simp [List.append_assoc, List.drop_left]
    rw [hdrop]
    exact mHOPT_fwd w1 w2 w3 w4 w5 post ha1 ha2 ha3 ha4 ha5

theorem dropLit_dashes (s : Str) :
    dropLit? ("--".toList) ("--".toList ++ s) = some s := dropLit_self _ s

theorem dropWhile_dashes (s : Str) :
    List.dropWhile wsb ("--".toList ++ s) = "--".toList ++ s := rfl

theorem ciSame_once_parts {lit2 : Str} (hci : ciSame lit2 ("once".toList)) :
    ∃ x lx, lit2 = x :: lx ∧ x.toLower = 'o' := by
  cases lit2 with
  | nil => simp [ciSame] at hci
  | cons x lx =>
    refine ⟨x, lx, rfl, ?_⟩
    have : x.toLower :: lx.map Char.toLower
        = 'o' :: ('n' :: 'c' :: 'e' :: []) := by
      simpa [ciSame] using hci
    exact (List.cons.injEq _ _ _ _ ▸ this : _ ∧ _).1

theorem dropWhile_ci_once (lit2 post : Str) (hci : ciSame lit2 ("once".toList)) :
    List.dropWhile wsb (lit2 ++ post) = lit2 ++ post := by
  obtain ⟨x, lx, hx, hlow⟩ := ciSame_once_parts hci
  subst hx
  rw [List.cons_append]
  exact dropWhile_head_false _ (ciHead_not_ws hlow (by rfl))

theorem onceTail_inv {r : Str} (h : onceTail r = true) :
    ∃ w1 w2 lit2 post, r = w1 ++ ("--".toList ++ (w2 ++ (lit2 ++ post)))
      ∧ w1.all wsb = true ∧ w2.all wsb = true
      ∧ ciSame lit2 ("once".toList) := by
  unfold onceTail at h
  split at h
  · exact absurd h (by simp)
  next b h1 =>
  simp only [Option.isSome_iff_exists] at h
  obtain ⟨post, h2⟩ := h
  have e1 := dropLit_inv h1
  obtain ⟨lit2, e2, hci⟩ := dropLitCI_inv h2
  have qb : b = List.takeWhile wsb b ++ (lit2 ++ post) := by
    conv_lhs => rw [wsTake_drop b, e2]
  refine ⟨r.takeWhile wsb, b.takeWhile wsb, lit2, post, ?_,
    wsTake_all r, wsTake_all b, hci⟩
  conv_lhs => rw [wsTake_drop r, e1, qb]

theorem onceTail_fwd (w1 w2 lit2 post : Str) (h1 : w1.all wsb = true)
    (h2 : w2.all wsb = true) (hci : ciSame lit2 ("once".toList)) :
    onceTail (w1 ++ ("--".toList ++ (w2 ++ (lit2 ++ post)))) = true := by
  unfold onceTail
  rw [dropWhile_append_all _ (allws_mem h1), dropWhile_dashes, dropLit_dashes]
  simp only []
  rw [dropWhile_append_all _ (allws_mem h2), dropWhile_ci_once lit2 post hci,
    dropLitCI_fwd post hci]
  rfl

theorem mOnceScan_fwd (mid rest : Str) (hmid : (',' : Char) ∉ mid)
    (ht : onceTail rest = true) : mOnceScan (mid ++ ')' :: rest) = true := by
  induction mid with
  | nil => simp [mOnceScan, ht]
  | cons m mt ih =>
    have hm : ¬ m = ',' := fun hh => hmid (by simp [hh])
    simp only [List.cons_append, mOnceScan, if_neg hm, Bool.or_eq_true]
    exact Or.inr (ih (fun hmem => hmid (by simp [hmem])))

theorem mOnceScan_inv {a : Str} (h : mOnceScan a = true) :
    ∃ mid rest, a = mid ++ ')' :: rest ∧ (',' : Char) ∉ mid
      ∧ onceTail rest = true := by
  induction a with
  | nil => simp [mOnceScan] at h
  | cons c t ih =>
    by_cases hc : c = ','
    · simp [mOnceScan, if_pos hc] at h
    · simp only [mOnceScan, if_neg hc, Bool.or_eq_true, Bool.and_eq_true,
        decide_eq_true_eq] at h
      rcases h with ⟨hcp, ht⟩ | h
      · exact ⟨[], t, by simp [hcp], by simp, ht⟩
      · obtain ⟨mid, rest, happ, hmem, ht⟩ := ih h
        refine ⟨c :: mid, rest, by simp [happ], ?_, ht⟩
        intro hmm
        rcases List.mem_cons.mp hmm with h1 | h1
        · exact hc h1.symm
        · exact hmem h1

theorem searchOnce_iff (lua : Str) :
    searchAnySuffix mOnceComment lua = true ↔ onceSpec lua := by
  rw [searchAnySuffix_iff]
  constructor
  · rintro ⟨k, hk⟩
    unfold mOnceComment at hk
    split at hk
    · exact absurd hk (by simp)
    next a h1 =>
    obtain ⟨lit, he, hci⟩ := dropLitCI_inv h1
    obtain ⟨mid, rest, ha, hmid, ht⟩ := mOnceScan_inv hk
    obtain ⟨w1, w2, lit2, post, hr, hw1, hw2, hci2⟩ := onceTail_inv ht
    refine ⟨lua.take k, lit, mid, w1, w2, lit2, post, ?_, hci, hmid,
      hw1, hw2, hci2⟩
    conv_lhs => rw [← List.take_append_drop k lua, he, ha, hr]
    simp [List.append_assoc]
  · rintro ⟨pre, lit, mid, w1, w2, lit2, post, hshape, hci, hmid, hw1, hw2, hci2⟩
    refine ⟨pre.length, ?_⟩
    have hdrop : lua.drop pre.length
        = lit ++ (mid ++ ')' :: (w1 ++ ("--".toList ++ (w2 ++ (lit2 ++ post))))) := by
      rw [hshape]
      simp [List.append_assoc, List.drop_left]
    rw [hdrop]
    unfold mOnceComment
    rw [dropLitCI_fwd _ hci]
    simp only []
    exact mOnceScan_fwd mid _ hmid (onceTail_fwd w1 w2 lit2 post hw1 hw2 hci2)

/-- Claim C4, amended.  has_HOPT_like is true exactly when the text
    contains a dot-prefixed count-limit call whose argument list is
    exactly the literal 1 and the identifier id (with optional whitespace
    around the tokens), or a case-insensitive count-limit call opener, a
    comma-free stretch, a closing parenthesis and then a line comment
    whose text begins, case-insensitively, with once.  This matches the
    two source patterns RE_SETCOUNTLIMIT_HOPT and the inline IGNORECASE
    search. -/
theorem C4_amended_hopt_like (lua : Str) :
    ((detect_meta lua).has_HOPT_like = true) ↔ (hoptSpec lua ∨ onceSpec lua) := by
  have hd : (detect_meta lua).has_HOPT_like
      = (searchAnySuffix mHOPT lua || searchAnySuffix mOnceComment lua) := rfl
  rw [hd, Bool.or_eq_true, searchHOPT_iff, searchOnce_iff]
